import Mathlib

/-!
Verification of the proof-commitment core of the ZksyncVerifier repository.

The development shallowly embeds, from the TypeScript/Solidity sources:

* `computeProof` (src/lib/utils.ts) — keccak-256 over
  `solidityPacked(["string","address","uint256"], …)`, with EIP-55 address
  normalization (`getAddress` from the ethers library);
* `ProofOfCreativity.storeProof` (Solidity) — the on-ledger
  `keccak256(abi.encodePacked(cid, msg.sender, ts))`;
* `extractCidToken` (src/lib/ipfs.ts and its duplicate in
  src/app/components/ProofCard.tsx);
* the mock-CID fallback of `FileUploader.handleFile`;
* `createProofObject` and `verifyLocally` (src/app/demo/page.tsx).

Bytes are modelled as `Nat` values below 256, 64-bit lanes as `Nat` values
below `2 ^ 64` with explicit masking, JS numbers used as timestamps as `Int`,
and thrown exceptions as `Except` / `Option` results.
-/

namespace ZkVerifier

/-! ## Keccak-256

Mirrors the `keccak256` primitive of the ethers library (pre-NIST Keccak with
0x01 multi-rate padding, rate 1088), the hash used by both `computeProof` and
the Solidity contract. -/

/-- Rotate a 64-bit lane left by `n` bits. -/
def rol64 (x n : Nat) : Nat :=
  ((x <<< (n % 64)) ||| (x >>> (64 - n % 64))) % (2 ^ 64)

/-- Round constants of Keccak-f[1600], rounds 0 to 5. -/
def keccakRCa : List Nat :=
  [1, 32898, 9223372036854808714, 9223372039002292224, 32907, 2147483649]

/-- Round constants, rounds 6 to 11. -/
def keccakRCb : List Nat :=
  [9223372039002292353, 9223372036854808585, 138, 136, 2147516425, 2147483658]

/-- Round constants, rounds 12 to 17. -/
def keccakRCc : List Nat :=
  [2147516555, 9223372036854775947, 9223372036854808713, 9223372036854808579,
   9223372036854808578, 9223372036854775936]

/-- Round constants, rounds 18 to 23. -/
def keccakRCd : List Nat :=
  [32778, 9223372039002259466, 9223372039002292353, 9223372036854808704,
   2147483649, 9223372039002292232]

def keccakRC : List Nat := keccakRCa ++ keccakRCb ++ keccakRCc ++ keccakRCd

/-- Rotation offsets of the rho step for the lanes `y = 0`. -/
def keccakRho0 : List Nat := [0, 1, 62, 28, 27]

/-- Rotation offsets for the lanes `y = 1`. -/
def keccakRho1 : List Nat := [36, 44, 6, 55, 20]

/-- Rotation offsets for the lanes `y = 2`. -/
def keccakRho2 : List Nat := [3, 10, 43, 25, 39]

/-- Rotation offsets for the lanes `y = 3`. -/
def keccakRho3 : List Nat := [41, 45, 15, 21, 8]

/-- Rotation offsets for the lanes `y = 4`. -/
def keccakRho4 : List Nat := [18, 2, 61, 56, 14]

/-- Rotation offsets of the rho step, indexed by `x + 5*y`. -/
def keccakRho : List Nat :=
  keccakRho0 ++ keccakRho1 ++ keccakRho2 ++ keccakRho3 ++ keccakRho4

def keccakTheta (A : List Nat) : List Nat :=
  let C := (List.range 5).map fun x =>
    (A.getD x 0) ^^^ (A.getD (x + 5) 0) ^^^ (A.getD (x + 10) 0) ^^^
      (A.getD (x + 15) 0) ^^^ (A.getD (x + 20) 0)
  let D := (List.range 5).map fun x =>
    (C.getD ((x + 4) % 5) 0) ^^^ rol64 (C.getD ((x + 1) % 5) 0) 1
  (List.range 25).map fun i => (A.getD i 0) ^^^ (D.getD (i % 5) 0)

def keccakRhoPi (A : List Nat) : List Nat :=
  (List.range 25).map fun j =>
    let xp := j % 5
    let yp := j / 5
    let x := (xp + 3 * yp) % 5
    let y := xp
    rol64 (A.getD (x + 5 * y) 0) (keccakRho.getD (x + 5 * y) 0)

def keccakChi (B : List Nat) : List Nat :=
  (List.range 25).map fun j =>
    let x := j % 5
    let y := j / 5
    (B.getD j 0) ^^^
      ((0xFFFFFFFFFFFFFFFF ^^^ B.getD ((x + 1) % 5 + 5 * y) 0) &&&
        B.getD ((x + 2) % 5 + 5 * y) 0)

def keccakRound (A : List Nat) (rc : Nat) : List Nat :=
  let B := keccakChi (keccakRhoPi (keccakTheta A))
  B.set 0 ((B.getD 0 0) ^^^ rc)

def keccakF (A : List Nat) : List Nat := keccakRC.foldl keccakRound A

/-- Little-endian read of up to 8 bytes into one 64-bit lane. -/
def leLane (bs : List Nat) : Nat := bs.foldr (fun b acc => acc * 256 + b) 0

/-- Little-endian write of a lane as `w` bytes. -/
def leBytes : Nat → Nat → List Nat
  | 0, _ => []
  | w + 1, n => n % 256 :: leBytes w (n / 256)

/-- XOR a 136-byte block into the first 17 lanes, then permute. -/
def absorbBlock (A block : List Nat) : List Nat :=
  keccakF ((List.range 25).map fun j =>
    (A.getD j 0) ^^^ (if j < 17 then leLane ((block.drop (8 * j)).take 8) else 0))

/-- Keccak multi-rate padding for rate 136 (append 0x01, zero fill, set the
final 0x80 bit). -/
def keccakPad (msg : List Nat) : List Nat :=
  let padLen := 136 - msg.length % 136
  if padLen = 1 then msg ++ [0x81]
  else msg ++ [0x01] ++ List.replicate (padLen - 2) 0 ++ [0x80]

/-- Fuel-based splitting into 136-byte blocks; the fuel is an upper bound on
the number of blocks, keeping the recursion structural so that the kernel can
evaluate it. -/
def splitBlocksAux : Nat → List Nat → List (List Nat)
  | 0, _ => []
  | _, [] => []
  | fuel + 1, l => l.take 136 :: splitBlocksAux fuel (l.drop 136)

def splitBlocks (l : List Nat) : List (List Nat) := splitBlocksAux l.length l

/-- Keccak-256 digest of a byte list: 32 bytes. -/
def keccak256 (msg : List Nat) : List Nat :=
  let final := (splitBlocks (keccakPad msg)).foldl absorbBlock (List.replicate 25 0)
  (List.range 4).foldr (fun j acc => leBytes 8 (final.getD j 0) ++ acc) []

/-! ## Hexadecimal characters -/

/-- Lowercase hex digit for a nibble value. -/
def nibbleChar (n : Nat) : Char :=
  if n = 0 then '0' else if n = 1 then '1' else if n = 2 then '2'
  else if n = 3 then '3' else if n = 4 then '4' else if n = 5 then '5'
  else if n = 6 then '6' else if n = 7 then '7' else if n = 8 then '8'
  else if n = 9 then '9' else if n = 10 then 'a' else if n = 11 then 'b'
  else if n = 12 then 'c' else if n = 13 then 'd' else if n = 14 then 'e'
  else if n = 15 then 'f' else '0'

def decimalDigitChars : List Char :=
  ['0', '1', '2', '3', '4', '5', '6', '7', '8', '9']

def upperHexLetters : List Char := ['A', 'B', 'C', 'D', 'E', 'F']

def lowerHexLetters : List Char := ['a', 'b', 'c', 'd', 'e', 'f']

def lowerHexChars : List Char := decimalDigitChars ++ lowerHexLetters

/-- Character class `[0-9a-fA-F]`. -/
def isHexChar (c : Char) : Bool :=
  lowerHexChars.contains c || upperHexLetters.contains c

/-- Value of one hex digit. -/
def hexVal (c : Char) : Option Nat :=
  if c = '0' then some 0 else if c = '1' then some 1
  else if c = '2' then some 2 else if c = '3' then some 3
  else if c = '4' then some 4 else if c = '5' then some 5
  else if c = '6' then some 6 else if c = '7' then some 7
  else if c = '8' then some 8 else if c = '9' then some 9
  else if c = 'a' then some 10 else if c = 'b' then some 11
  else if c = 'c' then some 12 else if c = 'd' then some 13
  else if c = 'e' then some 14 else if c = 'f' then some 15
  else if c = 'A' then some 10 else if c = 'B' then some 11
  else if c = 'C' then some 12 else if c = 'D' then some 13
  else if c = 'E' then some 14 else if c = 'F' then some 15
  else none

/-- ASCII lowercasing restricted to the hex letters that can occur in an
already hex-validated address body (mirrors `toLowerCase` there). -/
def hexLowerChar (c : Char) : Char :=
  if c = 'A' then 'a' else if c = 'B' then 'b' else if c = 'C' then 'c'
  else if c = 'D' then 'd' else if c = 'E' then 'e' else if c = 'F' then 'f'
  else c

/-- ASCII uppercasing restricted to hex letters (mirrors `toUpperCase` applied
to lowercase hex digits; digits are left unchanged). -/
def hexUpperChar (c : Char) : Char :=
  if c = 'a' then 'A' else if c = 'b' then 'B' else if c = 'c' then 'C'
  else if c = 'd' then 'D' else if c = 'e' then 'E' else if c = 'f' then 'F'
  else c

/-- Parse consecutive hex-digit pairs into bytes (the `getBytes` view of a
hex string after its `0x` tag). -/
def hexPairBytes : List Char → Option (List Nat)
  | [] => some []
  | [_] => none
  | c1 :: c2 :: rest =>
    match hexVal c1, hexVal c2, hexPairBytes rest with
    | some h, some l, some bs => some ((16 * h + l) :: bs)
    | _, _, _ => none

/-- Bytes of a `0x`-tagged hex string (ethers `getBytes`). -/
def getBytesHex (s : String) : Option (List Nat) :=
  match s.data with
  | '0' :: 'x' :: rest => hexPairBytes rest
  | _ => none

/-- Render bytes as a `0x`-tagged lowercase hex string (ethers `hexlify`,
the output form of `keccak256`). -/
def hexlify (bs : List Nat) : String :=
  String.mk ('0' :: 'x' :: bs.flatMap fun b => [nibbleChar (b / 16), nibbleChar (b % 16)])

/-! ## UTF-8 encoding (ethers `toUtf8Bytes`) -/

/-- UTF-8 encoding of one Unicode code point. -/
def utf8EncodeCp (v : Nat) : List Nat :=
  if v < 0x80 then [v]
  else if v < 0x800 then [0xC0 + v / 0x40, 0x80 + v % 0x40]
  else if v < 0x10000 then
    [0xE0 + v / 0x1000, 0x80 + v / 0x40 % 0x40, 0x80 + v % 0x40]
  else
    [0xF0 + v / 0x40000, 0x80 + v / 0x1000 % 0x40, 0x80 + v / 0x40 % 0x40,
     0x80 + v % 0x40]

def utf8Chars (cs : List Char) : List Nat := cs.flatMap fun c => utf8EncodeCp c.toNat

/-- UTF-8 bytes of a string. -/
def utf8Bytes (s : String) : List Nat := utf8Chars s.data

/-! ## EIP-55 address normalization (ethers `getAddress`)

Models the hexadecimal branch of ethers v6 `getAddress`: a string matching
`(0x)?[0-9a-fA-F]{40}` is checksummed per EIP-55; a mixed-case input whose
case pattern disagrees with its checksum is rejected; everything else is
rejected.  (The rarely-used ICAP `XE…` branch of the library is not modelled;
no call site of this repository produces such inputs.)  `none` models the
thrown `invalid address` / `bad address checksum` errors. -/

/-- Fold `f` over a list together with the element index, structurally. -/
def mapIdxFrom (f : Nat → α → β) : Nat → List α → List β
  | _, [] => []
  | i, a :: t => f i a :: mapIdxFrom f (i + 1) t

/-- Nibble `i` (big-endian within a byte) of a byte list. -/
def nibbleAt (bs : List Nat) (i : Nat) : Nat :=
  if i % 2 = 0 then bs.getD (i / 2) 0 / 16 else bs.getD (i / 2) 0 % 16

/-- Uppercase the hex digits whose corresponding keccak nibble is at least 8. -/
def applyChecksum (hashed : List Nat) (low : List Char) : List Char :=
  mapIdxFrom (fun i c => if 8 ≤ nibbleAt hashed i then hexUpperChar c else c) 0 low

/-- EIP-55 checksummed form of a 40-hex-char address body
(ethers `getChecksumAddress`, without the `0x` tag). -/
def getChecksumBody (body : List Char) : List Char :=
  let low := body.map hexLowerChar
  let hashed := keccak256 (low.map Char.toNat)
  applyChecksum hashed low

/-- Does the list match `(0x)?[0-9a-fA-F]{40}` exactly? -/
def isHex40 (cs : List Char) : Bool :=
  (cs.length == 40 && cs.all isHexChar) ||
    (['0', 'x'].isPrefixOf cs && (cs.drop 2).length == 40 &&
      (cs.drop 2).all isHexChar)

/-- Does the `0x`-tagged form contain both an uppercase and a lowercase hex
letter (the regex `([A-F].*[a-f])|([a-f].*[A-F])`)? -/
def hasMixedCase (cs : List Char) : Bool :=
  cs.any upperHexLetters.contains && cs.any lowerHexLetters.contains

/-- Checksumming step of `getAddress` on the `0x`-tagged form: reject a
mixed-case input that is not its own checksummed form, otherwise return the
checksummed form. -/
def checksumGuard (withTag : List Char) : Option String :=
  let result := '0' :: 'x' :: getChecksumBody (withTag.drop 2)
  if hasMixedCase withTag && withTag ≠ result then none
  else some (String.mk result)

/-- Ethers v6 `getAddress` (hexadecimal branch): validate the shape, prepend
the `0x` tag when absent, and checksum-validate. -/
def getAddress (s : String) : Option String :=
  if isHex40 s.data then
    checksumGuard (if ['0', 'x'].isPrefixOf s.data then s.data
      else '0' :: 'x' :: s.data)
  else none

/-! ## solidityPacked and computeProof (src/lib/utils.ts) -/

/-- Big-endian write of `n` as `w` bytes. -/
def beBytes : Nat → Nat → List Nat
  | 0, _ => []
  | w + 1, n => beBytes w (n / 256) ++ [n % 256]

/-- Packing of a `uint256` value (ethers `zeroPadValue(toBeHex v, 32)`): the
library throws for a negative value (`getUint`) and for a value needing more
than 32 bytes (`zeroPadValue`). -/
def packUint256 (v : Int) : Option (List Nat) :=
  if v < 0 then none
  else if v ≥ 2 ^ 256 then none
  else some (beBytes 32 v.toNat)

/-- Packed pre-image of the commitment: UTF-8 bytes of the token, then the
20 address bytes, then the 32-byte big-endian timestamp. -/
def packedBytes (token : String) (addr : List Nat) (ts : Nat) : List Nat :=
  utf8Bytes token ++ addr ++ beBytes 32 ts

/-- Ethers `solidityPacked(["string","address","uint256"], [cid, addr, ts])`.
The address member is packed as `getBytes(getAddress(addr))`. -/
def solidityPackedStrAddrUint (cid addr : String) (ts : Int) :
    Option (List Nat) :=
  match getAddress addr with
  | none => none
  | some a =>
    match getBytesHex a, packUint256 ts with
    | some ab, some tb => some (utf8Bytes cid ++ ab ++ tb)
    | _, _ => none

/-- Error outcomes of `computeProof`: the caught address-normalization
failure, re-thrown as the "Invalid owner address" error, versus any exception
escaping from the packing step itself. -/
inductive ProofError where
  | invalidOwnerAddress
  | packingFault
deriving DecidableEq, Repr

/-- `computeProof` from src/lib/utils.ts: normalize the owner (rejecting
invalid addresses), then keccak-hash the solidity-packed `(cid, owner, ts)`
triple, returning the `0x`-tagged hex digest. -/
def computeProof (cid owner : String) (ts : Int) : Except ProofError String :=
  match getAddress owner with
  | none => .error .invalidOwnerAddress
  | some normalizedOwner =>
    match solidityPackedStrAddrUint cid normalizedOwner ts with
    | none => .error .packingFault
    | some bytes => .ok (hexlify (keccak256 bytes))

/-! ## ProofOfCreativity.storeProof (contracts/ProofOfCreativity.sol) -/

/-- Fields of the `ProofStored` event: owner, 32-byte proof, cid, block
timestamp and the reserved 32-byte meta slot. -/
structure ProofStoredEvent where
  owner : List Nat
  proof : List Nat
  cid : String
  timestamp : Nat
  meta : List Nat
deriving DecidableEq, Repr

/-- The proof hash computed on-ledger:
`keccak256(abi.encodePacked(cid, msg.sender, ts))`, where the string is
packed as raw UTF-8 bytes, the address as 20 bytes and the `uint256`
big-endian in 32 bytes. -/
def storeProofHash (cid : String) (sender : List Nat) (ts : Nat) : List Nat :=
  keccak256 (packedBytes cid sender ts)

/-- `storeProof` of the contract, as a function of the transaction sender and
the block timestamp: computes the proof hash and emits `ProofStored`. -/
def storeProof (sender : List Nat) (cid : String) (ts : Nat) : ProofStoredEvent :=
  { owner := sender
    proof := storeProofHash cid sender ts
    cid := cid
    timestamp := ts
    meta := List.replicate 32 0 }

/-! ## extractCidToken (src/lib/ipfs.ts and the ProofCard duplicate)

The browser's `new URL(s).pathname` computation, reached only for
`http(s)://` inputs without an `/ipfs/` segment, is an external platform
collaborator; it is abstracted as an oracle `UrlEnv` (with `none` modelling a
throwing constructor, caught by the source).  All theorems below hold for
every oracle. -/

structure UrlEnv where
  pathname : List Char → Option (List Char)

/-- Whitespace removed by JS `String.prototype.trim`. -/
def isJsWs (c : Char) : Bool :=
  [9, 10, 11, 12, 13, 32, 160, 0x2028, 0x2029, 0xFEFF].contains c.toNat

def trimChars (cs : List Char) : List Char :=
  ((cs.dropWhile isJsWs).reverse.dropWhile isJsWs).reverse

/-- First index at which `p` occurs as a contiguous sublist (JS `indexOf`). -/
def findSubstr (p : List Char) : List Char → Option Nat
  | [] => if p.isEmpty then some 0 else none
  | c :: rest =>
    if p.isPrefixOf (c :: rest) then some 0 else (findSubstr p rest).map (· + 1)

/-- Split at every occurrence of `sep` (JS `split`). -/
def splitChar (sep : Char) : List Char → List (List Char)
  | [] => [[]]
  | c :: rest =>
    let r := splitChar sep rest
    if c = sep then [] :: r
    else
      match r with
      | [] => [[c]]
      | h :: t => (c :: h) :: t

def httpChars : List Char := ['h', 't', 't', 'p', ':', '/', '/']

def httpsChars : List Char := ['h', 't', 't', 'p', 's', ':', '/', '/']

def ipfsSchemeChars : List Char := ['i', 'p', 'f', 's', ':', '/', '/']

def ipfsSegChars : List Char := ['/', 'i', 'p', 'f', 's', '/']

/-- The `new URL(s)` fallback: take the last non-empty path component of the
parsed URL, or leave the string unchanged when parsing throws or the path is
empty. -/
def urlLastPathPart (env : UrlEnv) (cs : List Char) : List Char :=
  match env.pathname cs with
  | none => cs
  | some p =>
    let parts := (splitChar '/' p).filter fun l => !l.isEmpty
    match parts.getLast? with
    | some last => last
    | none => cs

/-- The candidate-extraction pipeline shared by both resolver copies: trim,
strip a gateway URL or an `ipfs://` scheme, strip a leading `/ipfs/` segment,
cut at the first `/`, `?` or `#`, trim again. -/
def stripCandidate (env : UrlEnv) (cs0 : List Char) : List Char :=
  let s1 := trimChars cs0
  let s2 :=
    if httpChars.isPrefixOf s1 || httpsChars.isPrefixOf s1 then
      match findSubstr ipfsSegChars s1 with
      | some i => s1.drop (i + 6)
      | none => urlLastPathPart env s1
    else s1
  let s3 :=
    if ipfsSchemeChars.isPrefixOf s2 then (s2.drop 7).dropWhile (· = '/')
    else s2
  let s4 :=
    match findSubstr ipfsSegChars s3 with
    | some i => s3.drop (i + 6)
    | none => s3
  let s5 := s4.takeWhile fun c => ¬(c = '/' ∨ c = '?' ∨ c = '#')
  trimChars s5

/-- ASCII character class `[A-Za-z0-9]`. -/
def isAlphanumCh (c : Char) : Bool :=
  (48 ≤ c.toNat && c.toNat ≤ 57) || (65 ≤ c.toNat && c.toNat ≤ 90) ||
    (97 ≤ c.toNat && c.toNat ≤ 122)

/-- Character class `[1-9A-HJ-NP-Za-km-z]` under the `i` flag.  Every ASCII
letter has at least one case in the class (for the excluded `I`, `O` the
lowercase forms are present, for the excluded `l` the uppercase form is), so
case-insensitively the class is exactly the alphanumerics without `0`. -/
def isBase58Ci (c : Char) : Bool := isAlphanumCh c && c.toNat != 48

/-- Anchored match of `Qm[1-9A-HJ-NP-Za-km-z]{44}` under the `i` flag. -/
def strictQmMatch (cs : List Char) : Bool :=
  match cs with
  | c1 :: c2 :: rest =>
    (c1 == 'Q' || c1 == 'q') && (c2 == 'm' || c2 == 'M') &&
      rest.length == 44 && rest.all isBase58Ci
  | _ => false

/-- Anchored match of `bafy[a-z0-9]{min,}` under the `i` flag (the lib copy
uses `min = 40`, the ProofCard copy `min = 52`). -/
def strictBafyMatch (min : Nat) (cs : List Char) : Bool :=
  match cs with
  | c1 :: c2 :: c3 :: c4 :: rest =>
    (c1 == 'b' || c1 == 'B') && (c2 == 'a' || c2 == 'A') &&
      (c3 == 'f' || c3 == 'F') && (c4 == 'y' || c4 == 'Y') &&
      decide (min ≤ rest.length) && rest.all isAlphanumCh
  | _ => false

/-- The relaxed rule: 20 < length < 128 and `[A-Za-z0-9]+`. -/
def relaxedMatch (cs : List Char) : Bool :=
  !cs.isEmpty && cs.all isAlphanumCh &&
    decide (20 < cs.length) && decide (cs.length < 128)

/-- Final validation of the stripped candidate. -/
def validateCid (bafyMin : Nat) (cs : List Char) : Option (List Char) :=
  if strictQmMatch cs || strictBafyMatch bafyMin cs then some cs
  else if relaxedMatch cs then some cs
  else none

/-- Both copies of `extractCidToken`, parameterized by the minimum length of
the strict CIDv1 suffix, the only point where the two copies differ.
An empty or absent input is falsy and returns `null` immediately. -/
def extractCidTokenWith (bafyMin : Nat) (env : UrlEnv) (raw : Option String) :
    Option String :=
  match raw with
  | none => none
  | some r =>
    if r = "" then none
    else (validateCid bafyMin (stripCandidate env r.data)).map String.mk

/-- `extractCidToken` from src/lib/ipfs.ts (strict CIDv1 suffix length ≥ 40). -/
def extractCidToken (env : UrlEnv) (raw : Option String) : Option String :=
  extractCidTokenWith 40 env raw

/-- The duplicated `extractCidToken` inside ProofCard.tsx (suffix ≥ 52). -/
def extractCidTokenCard (env : UrlEnv) (raw : Option String) : Option String :=
  extractCidTokenWith 52 env raw

/-! ## The upload fallback's placeholder token (FileUploader.tsx) -/

/-- Hex digits of `n`, most significant first, by fuel-based recursion. -/
def natHexDigits : Nat → Nat → List Char
  | 0, _ => []
  | fuel + 1, n => if n = 0 then [] else natHexDigits fuel (n / 16) ++ [nibbleChar (n % 16)]

/-- JS `Number.prototype.toString(16)` for a natural number. -/
def natToHex (n : Nat) : List Char := if n = 0 then ['0'] else natHexDigits n n

def mockCidPrefix : List Char :=
  ['b', 'a', 'f', 'y', 'b', 'e', 'i', 'm', 'o', 'c', 'k', 'c', 'i', 'd']

/-- The locally-synthesized placeholder token
`bafybeimockcid${Date.now().toString(16)}`. -/
def mockCid (now : Nat) : String := String.mk (mockCidPrefix ++ natToHex now)

/-! ## The demo lifecycle (src/app/demo/page.tsx) -/

/-- A proof record as held by the UI (`Proof` in components/types). -/
structure ProofRec where
  cid : String
  owner : String
  proof : String
  ts : Int
  txHash : Option String
deriving DecidableEq, Repr, Inhabited

/-- Result shape of the `web3.storeProof` collaborator, with `none` for
absent (nullish) fields. -/
structure StoreProofRes where
  txHash : Option String
  owner : Option String
  timestamp : Option Int
deriving DecidableEq, Repr

/-- Outcome of the dynamic `lib/web3` import and the anchoring call:
the module or its `storeProof` may be unavailable, the call may throw, or it
returns a result object. -/
inductive Web3Outcome where
  | unavailable
  | threw
  | ok (res : StoreProofRes)

/-- Mock fallback of `createProofObject`: commit with the locally generated
mock owner and the wall-clock timestamp; a `computeProof` throw here escapes
to the caller. -/
def mockFlow (cid mockOwner : String) (ts : Int) : Except ProofError ProofRec :=
  match computeProof cid mockOwner ts with
  | .ok h => .ok ⟨cid, mockOwner, h, ts, none⟩
  | .error e => .error e

/-- `createProofObject` from the demo page: prefer the ledger-anchoring call,
fall back to the mock flow on any failure (an unavailable `lib/web3` module,
a throw from `storeProof`, or a `computeProof` throw inside the anchored
branch). -/
def createProofObject (cid : String) (ts : Int) (w3 : Web3Outcome)
    (signerAddr : Option String) (mockOwner : String) :
    Except ProofError ProofRec :=
  match w3 with
  | .ok res =>
    let owner := res.owner.getD (signerAddr.getD "")
    let timestamp := res.timestamp.getD ts
    match computeProof cid owner timestamp with
    | .ok h => .ok ⟨cid, owner, h, timestamp, res.txHash⟩
    | .error _ => mockFlow cid mockOwner ts
  | _ => mockFlow cid mockOwner ts

/-- `verifyLocally` from the demo page: recompute the commitment over the
record's own fields and compare with the stored digest. -/
def verifyLocally (p : ProofRec) : Except ProofError Bool :=
  match computeProof p.cid p.owner p.ts with
  | .ok recomputed => .ok (recomputed == p.proof)
  | .error e => .error e

/-! ## Character-table lemmas -/

theorem char_toNat_lt (c : Char) : c.toNat < 1114112 := by
  have h := c.valid
  simp only [Char.toNat]
  rcases h with h | h <;> omega

theorem char_toNat_inj {c d : Char} (h : c.toNat = d.toNat) : c = d := by
  have := congrArg Char.ofNat h
  rwa [Char.ofNat_toNat, Char.ofNat_toNat] at this

theorem hexLowerChar_of_lower {c : Char} (h : lowerHexChars.contains c = true) :
    hexLowerChar c = c := by
  have hm0 : c ∈ lowerHexChars := by simpa using h
  unfold lowerHexChars at hm0
  rcases List.mem_append.mp hm0 with hm | hm <;> fin_cases hm <;> rfl

theorem hexLowerChar_upper_of_lower {c : Char}
    (h : lowerHexChars.contains c = true) : hexLowerChar (hexUpperChar c) = c := by
  have hm0 : c ∈ lowerHexChars := by simpa using h
  unfold lowerHexChars at hm0
  rcases List.mem_append.mp hm0 with hm | hm <;> fin_cases hm <;> rfl

theorem lower_of_isHexChar {c : Char} (h : isHexChar c = true) :
    lowerHexChars.contains (hexLowerChar c) = true := by
  simp only [isHexChar, Bool.or_eq_true] at h
  rcases h with h | h
  · rw [hexLowerChar_of_lower h]; exact h
  · have hm : c ∈ upperHexLetters := by simpa using h
    fin_cases hm <;> rfl

theorem isHexChar_of_lower {c : Char} (h : lowerHexChars.contains c = true) :
    isHexChar c = true := by
  simp only [isHexChar, Bool.or_eq_true]
  exact Or.inl h

theorem isHexChar_upper_of_lower {c : Char}
    (h : lowerHexChars.contains c = true) : isHexChar (hexUpperChar c) = true := by
  have hm0 : c ∈ lowerHexChars := by simpa using h
  unfold lowerHexChars at hm0
  rcases List.mem_append.mp hm0 with hm | hm <;> fin_cases hm <;> rfl

theorem hexVal_of_isHexChar {c : Char} (h : isHexChar c = true) :
    ∃ v, hexVal c = some v ∧ v < 16 := by
  simp only [isHexChar, Bool.or_eq_true] at h
  rcases h with h | h
  · have hm0 : c ∈ lowerHexChars := by simpa using h
    unfold lowerHexChars at hm0
    rcases List.mem_append.mp hm0 with hm | hm <;> fin_cases hm <;>
      exact ⟨_, rfl, by omega⟩
  · have hm : c ∈ upperHexLetters := by simpa using h
    fin_cases hm <;> exact ⟨_, rfl, by omega⟩

theorem hexChar_not_x {c : Char} (h : isHexChar c = true) : c ≠ 'x' := by
  simp only [isHexChar, Bool.or_eq_true] at h
  rcases h with h | h
  · have hm0 : c ∈ lowerHexChars := by simpa using h
    unfold lowerHexChars at hm0
    rcases List.mem_append.mp hm0 with hm | hm <;> fin_cases hm <;> decide
  · have hm : c ∈ upperHexLetters := by simpa using h
    fin_cases hm <;> decide

/-! ## Checksum structure lemmas -/

theorem mapIdxFrom_length (f : Nat → α → β) (i : Nat) (l : List α) :
    (mapIdxFrom f i l).length = l.length := by
  induction l generalizing i with
  | nil => rfl
  | cons a t ih => simp [mapIdxFrom, ih]

theorem applyChecksum_length (hashed : List Nat) (low : List Char) :
    (applyChecksum hashed low).length = low.length :=
  mapIdxFrom_length _ _ _

theorem applyChecksum_mem {hashed : List Nat} {low : List Char} {c : Char}
    (h : c ∈ applyChecksum hashed low) :
    ∃ c₀ ∈ low, c = c₀ ∨ c = hexUpperChar c₀ := by
  unfold applyChecksum at h
  generalize 0 = i at h
  induction low generalizing i with
  | nil => simp [mapIdxFrom] at h
  | cons a t ih =>
    simp only [mapIdxFrom, List.mem_cons] at h
    rcases h with h | h
    · refine ⟨a, by simp, ?_⟩
      split at h <;> simp [h]
    · obtain ⟨c₀, hc₀, hor⟩ := ih _ h
      exact ⟨c₀, by simp [hc₀], hor⟩

theorem applyChecksum_map_lower {hashed : List Nat} {low : List Char}
    (h : ∀ c ∈ low, lowerHexChars.contains c = true) :
    (applyChecksum hashed low).map hexLowerChar = low := by
  unfold applyChecksum
  generalize 0 = i
  induction low generalizing i with
  | nil => rfl
  | cons a t ih =>
    have ha := h a (by simp)
    simp only [mapIdxFrom, List.map_cons]
    rw [ih fun c hc => h c (by simp [hc])]
    congr 1
    split
    · exact hexLowerChar_upper_of_lower ha
    · exact hexLowerChar_of_lower ha

theorem map_lower_all_lower {body : List Char}
    (h : ∀ c ∈ body, isHexChar c = true) :
    ∀ c ∈ body.map hexLowerChar, lowerHexChars.contains c = true := by
  intro c hc
  simp only [List.mem_map] at hc
  obtain ⟨c₀, hc₀, rfl⟩ := hc
  exact lower_of_isHexChar (h c₀ hc₀)

theorem getChecksumBody_length {body : List Char} :
    (getChecksumBody body).length = body.length := by
  unfold getChecksumBody
  rw [applyChecksum_length, List.length_map]

theorem getChecksumBody_all_hex {body : List Char}
    (h : ∀ c ∈ body, isHexChar c = true) :
    ∀ c ∈ getChecksumBody body, isHexChar c = true := by
  intro c hc
  unfold getChecksumBody at hc
  obtain ⟨c₀, hc₀, hor⟩ := applyChecksum_mem hc
  have hl := map_lower_all_lower h c₀ hc₀
  rcases hor with rfl | rfl
  · exact isHexChar_of_lower hl
  · exact isHexChar_upper_of_lower hl

theorem getChecksumBody_idem {body : List Char}
    (h : ∀ c ∈ body, isHexChar c = true) :
    getChecksumBody (getChecksumBody body) = getChecksumBody body := by
  simp only [getChecksumBody]
  rw [applyChecksum_map_lower (map_lower_all_lower h)]

/-! ## getAddress lemmas -/

theorem zeroX_not_prefix_of_hex {cs : List Char} (hall : cs.all isHexChar = true) :
    ['0', 'x'].isPrefixOf cs = false := by
  cases cs with
  | nil => rfl
  | cons a t =>
    cases t with
    | nil => simp [List.isPrefixOf]
    | cons b u =>
      simp only [List.all_cons, Bool.and_eq_true] at hall
      have hb := hexChar_not_x hall.2.1
      apply Bool.eq_false_iff.mpr
      intro hcontra
      simp only [List.isPrefixOf, Bool.and_eq_true, beq_iff_eq] at hcontra
      exact hb hcontra.2.1.symm

theorem isHex40_body {cs : List Char} (h : isHex40 cs = true) :
    ∃ body, body.length = 40 ∧ body.all isHexChar = true ∧
      ((if ['0', 'x'].isPrefixOf cs then cs else '0' :: 'x' :: cs).drop 2 = body) := by
  simp only [isHex40, Bool.or_eq_true, Bool.and_eq_true, beq_iff_eq] at h
  rcases h with ⟨hlen, hall⟩ | ⟨⟨hpre, hlen⟩, hall⟩
  · refine ⟨cs, hlen, hall, ?_⟩
    rw [zeroX_not_prefix_of_hex hall]
    simp
  · exact ⟨cs.drop 2, hlen, hall, by rw [hpre]; simp⟩

theorem checksumGuard_some {w : List Char} {a : String}
    (h : checksumGuard w = some a) :
    a = String.mk ('0' :: 'x' :: getChecksumBody (w.drop 2)) := by
  simp only [checksumGuard] at h
  split at h
  · exact absurd h (by simp)
  · injection h with h
    rw [← h]

theorem getAddress_some_shape {s a : String} (h : getAddress s = some a) :
    ∃ body, body.length = 40 ∧ body.all isHexChar = true ∧
      a = String.mk ('0' :: 'x' :: getChecksumBody body) := by
  simp only [getAddress] at h
  split at h
  · next hhex =>
    obtain ⟨body, hlen, hall, hdrop⟩ := isHex40_body hhex
    have hshape := checksumGuard_some h
    rw [hdrop] at hshape
    exact ⟨body, hlen, hall, hshape⟩
  · exact absurd h (by simp)

theorem checksumGuard_fixedpoint {cc : List Char}
    (hfix : getChecksumBody cc = cc) :
    checksumGuard ('0' :: 'x' :: cc) = some (String.mk ('0' :: 'x' :: cc)) := by
  simp only [checksumGuard, List.drop_succ_cons, List.drop_zero, hfix]
  simp

theorem getAddress_checksummed {body : List Char} (hlen : body.length = 40)
    (hall : body.all isHexChar = true) :
    getAddress (String.mk ('0' :: 'x' :: getChecksumBody body)) =
      some (String.mk ('0' :: 'x' :: getChecksumBody body)) := by
  have hmem : ∀ c ∈ body, isHexChar c = true := by
    intro c hc; exact List.all_eq_true.mp hall c hc
  have hcclen : (getChecksumBody body).length = 40 := by
    rw [getChecksumBody_length, hlen]
  have hccall : (getChecksumBody body).all isHexChar = true :=
    List.all_eq_true.mpr fun c hc => getChecksumBody_all_hex hmem c hc
  have hpre : ['0', 'x'].isPrefixOf ('0' :: 'x' :: getChecksumBody body) = true := by
    simp [List.isPrefixOf]
  have hhex : isHex40 ('0' :: 'x' :: getChecksumBody body) = true := by
    simp only [isHex40, Bool.or_eq_true, Bool.and_eq_true, beq_iff_eq]
    exact Or.inr ⟨⟨hpre, by simpa using hcclen⟩, by simpa using hccall⟩
  simp only [getAddress, String.data]
  rw [if_pos hhex, if_pos hpre]
  exact checksumGuard_fixedpoint (getChecksumBody_idem hmem)

theorem hexPairBytes_ok : ∀ (cs : List Char), (∀ c ∈ cs, isHexChar c = true) →
    cs.length % 2 = 0 →
    ∃ bs, hexPairBytes cs = some bs ∧ bs.length = cs.length / 2
  | [], _, _ => ⟨[], rfl, rfl⟩
  | [_], _, heven => by simp at heven
  | c1 :: c2 :: rest, hall, heven => by
    obtain ⟨v1, hv1, _⟩ := hexVal_of_isHexChar (hall c1 (by simp))
    obtain ⟨v2, hv2, _⟩ := hexVal_of_isHexChar (hall c2 (by simp))
    obtain ⟨bs, hbs, hbslen⟩ := hexPairBytes_ok rest
      (fun c hc => hall c (by simp [hc]))
      (by simp only [List.length_cons] at heven; omega)
    refine ⟨(16 * v1 + v2) :: bs, ?_, ?_⟩
    · simp [hexPairBytes, hv1, hv2, hbs]
    · simp [hbslen]
      omega

theorem getBytesHex_checksummed {body : List Char} (hlen : body.length = 40)
    (hall : body.all isHexChar = true) :
    ∃ ab, getBytesHex (String.mk ('0' :: 'x' :: getChecksumBody body)) = some ab ∧
      ab.length = 20 := by
  have hmem : ∀ c ∈ body, isHexChar c = true := fun c hc =>
    List.all_eq_true.mp hall c hc
  have hcclen : (getChecksumBody body).length = 40 := by
    rw [getChecksumBody_length, hlen]
  obtain ⟨bs, hbs, hbslen⟩ :=
    hexPairBytes_ok _ (fun c hc => getChecksumBody_all_hex hmem c hc)
      (by rw [hcclen])
  exact ⟨bs, hbs, by rw [hbslen, hcclen]⟩

theorem packUint256_ok {ts : Int} (h0 : 0 ≤ ts) (h1 : ts < 2 ^ 256) :
    packUint256 ts = some (beBytes 32 ts.toNat) := by
  simp only [packUint256]
  rw [if_neg (by omega), if_neg (by omega)]

/-- Successful-path characterization of `computeProof`: with a normalizable
owner and an in-range timestamp, the result is the keccak digest of the
packed triple. -/
theorem computeProof_ok {owner a : String} (cid : String) {ts : Int}
    (ha : getAddress owner = some a) (h0 : 0 ≤ ts) (h1 : ts < 2 ^ 256) :
    ∃ ab, getBytesHex a = some ab ∧ ab.length = 20 ∧
      computeProof cid owner ts =
        .ok (hexlify (keccak256 (packedBytes cid ab ts.toNat))) := by
  obtain ⟨body, hlen, hall, rfl⟩ := getAddress_some_shape ha
  obtain ⟨ab, hab, hablen⟩ := getBytesHex_checksummed hlen hall
  refine ⟨ab, hab, hablen, ?_⟩
  simp only [computeProof, ha, solidityPackedStrAddrUint,
    getAddress_checksummed hlen hall, hab, packUint256_ok h0 h1]
  rfl

/-! ## Injectivity of the packed encoding -/

theorem beBytes_length (w n : Nat) : (beBytes w n).length = w := by
  induction w generalizing n with
  | zero => rfl
  | succ w ih => simp [beBytes, ih]

theorem beBytes_inj {w n₁ n₂ : Nat} (h₁ : n₁ < 256 ^ w) (h₂ : n₂ < 256 ^ w)
    (h : beBytes w n₁ = beBytes w n₂) : n₁ = n₂ := by
  induction w generalizing n₁ n₂ with
  | zero => omega
  | succ w ih =>
    simp only [beBytes] at h
    have hsplit := List.append_inj h (by rw [beBytes_length, beBytes_length])
    have hdiv : n₁ / 256 = n₂ / 256 := by
      apply ih ?_ ?_ hsplit.1
      · exact Nat.div_lt_iff_lt_mul (by omega) |>.mpr (by rw [← pow_succ]; exact h₁)
      · exact Nat.div_lt_iff_lt_mul (by omega) |>.mpr (by rw [← pow_succ]; exact h₂)
    have hmod : n₁ % 256 = n₂ % 256 := by
      have := hsplit.2
      simpa using this
    omega

theorem utf8Chars_nil : utf8Chars [] = [] := rfl

theorem utf8Chars_cons (c : Char) (t : List Char) :
    utf8Chars (c :: t) = utf8EncodeCp c.toNat ++ utf8Chars t := by
  simp [utf8Chars]

/-- Left inverse of `utf8EncodeCp` on the first encoded code point, used only
to prove the encoding injective. -/
def utf8DecodeFirst : List Nat → Option (Nat × List Nat)
  | [] => none
  | b0 :: rest =>
    if b0 < 0x80 then some (b0, rest)
    else if b0 < 0xC0 then none
    else if b0 < 0xE0 then
      some ((b0 - 0xC0) * 0x40 + (rest.getD 0 0 - 0x80), rest.drop 1)
    else if b0 < 0xF0 then
      some ((b0 - 0xE0) * 0x1000 + (rest.getD 0 0 - 0x80) * 0x40 +
        (rest.getD 1 0 - 0x80), rest.drop 2)
    else
      some ((b0 - 0xF0) * 0x40000 + (rest.getD 0 0 - 0x80) * 0x1000 +
        (rest.getD 1 0 - 0x80) * 0x40 + (rest.getD 2 0 - 0x80), rest.drop 3)

theorem utf8DecodeFirst_encode {v : Nat} (hv : v < 0x110000) (r : List Nat) :
    utf8DecodeFirst (utf8EncodeCp v ++ r) = some (v, r) := by
  by_cases h1 : v < 0x80
  · simp [utf8EncodeCp, utf8DecodeFirst, h1]
  · by_cases h2 : v < 0x800
    · simp only [utf8EncodeCp, if_neg h1, if_pos h2, List.cons_append,
        List.nil_append, utf8DecodeFirst]
      rw [if_neg (by omega), if_neg (by omega), if_pos (by omega)]
      simp only [List.getD_cons_zero, List.drop_succ_cons, List.drop_zero,
        Option.some.injEq, Prod.mk.injEq]
      exact ⟨by omega, trivial⟩
    · by_cases h3 : v < 0x10000
      · simp only [utf8EncodeCp, if_neg h1, if_neg h2, if_pos h3,
          List.cons_append, List.nil_append, utf8DecodeFirst]
        rw [if_neg (by omega), if_neg (by omega), if_neg (by omega),
          if_pos (by omega)]
        simp only [List.getD_cons_zero, List.getD_cons_succ,
          List.drop_succ_cons, List.drop_zero, Option.some.injEq, Prod.mk.injEq]
        exact ⟨by omega, trivial⟩
      · simp only [utf8EncodeCp, if_neg h1, if_neg h2, if_neg h3,
          List.cons_append, List.nil_append, utf8DecodeFirst]
        rw [if_neg (by omega), if_neg (by omega), if_neg (by omega),
          if_neg (by omega)]
        simp only [List.getD_cons_zero, List.getD_cons_succ,
          List.drop_succ_cons, List.drop_zero, Option.some.injEq, Prod.mk.injEq]
        exact ⟨by omega, trivial⟩

theorem utf8EncodeCp_ne_nil (v : Nat) : utf8EncodeCp v ≠ [] := by
  unfold utf8EncodeCp
  split_ifs <;> simp

theorem utf8EncodeCp_length_ne_zero (v : Nat) : (utf8EncodeCp v).length ≠ 0 := by
  simpa [List.length_eq_zero] using utf8EncodeCp_ne_nil v

theorem utf8Chars_append_inj : ∀ {l₁ l₂ : List Char} {r₁ r₂ : List Nat},
    utf8Chars l₁ ++ r₁ = utf8Chars l₂ ++ r₂ → r₁.length = r₂.length →
    l₁ = l₂ ∧ r₁ = r₂
  | [], [], r₁, r₂, h, _ => ⟨rfl, by simpa [utf8Chars_nil] using h⟩
  | [], c :: t, r₁, r₂, h, hlen => by
    exfalso
    rw [utf8Chars_nil, utf8Chars_cons, List.nil_append, List.append_assoc] at h
    have hl := congrArg List.length h
    simp only [List.length_append] at hl
    have := utf8EncodeCp_length_ne_zero c.toNat
    omega
  | c :: t, [], r₁, r₂, h, hlen => by
    exfalso
    rw [utf8Chars_nil, utf8Chars_cons, List.nil_append, List.append_assoc] at h
    have hl := congrArg List.length h
    simp only [List.length_append] at hl
    have := utf8EncodeCp_length_ne_zero c.toNat
    omega
  | c₁ :: t₁, c₂ :: t₂, r₁, r₂, h, hlen => by
    rw [utf8Chars_cons, utf8Chars_cons, List.append_assoc, List.append_assoc] at h
    have hdec₁ := utf8DecodeFirst_encode (char_toNat_lt c₁) (utf8Chars t₁ ++ r₁)
    have hdec₂ := utf8DecodeFirst_encode (char_toNat_lt c₂) (utf8Chars t₂ ++ r₂)
    rw [h, hdec₂] at hdec₁
    injection hdec₁ with hpair
    have hv := congrArg Prod.fst hpair
    have htail := congrArg Prod.snd hpair
    simp only at hv htail
    obtain ⟨ht, hr⟩ := utf8Chars_append_inj htail.symm hlen
    have hc : c₂ = c₁ := char_toNat_inj hv
    exact ⟨by rw [hc, ht], hr⟩

theorem utf8Bytes_append_inj {s₁ s₂ : String} {r₁ r₂ : List Nat}
    (h : utf8Bytes s₁ ++ r₁ = utf8Bytes s₂ ++ r₂) (hlen : r₁.length = r₂.length) :
    s₁ = s₂ ∧ r₁ = r₂ := by
  cases s₁ with
  | mk d₁ =>
    cases s₂ with
    | mk d₂ =>
      obtain ⟨hd, hr⟩ := utf8Chars_append_inj h hlen
      exact ⟨congrArg String.mk hd, hr⟩

/-- Injectivity of the packed pre-image on (token, address bytes, timestamp)
triples with fixed-width trailing fields. -/
theorem packedBytes_inj {t₁ t₂ : String} {a₁ a₂ : List Nat} {ts₁ ts₂ : Nat}
    (ha₁ : a₁.length = 20) (ha₂ : a₂.length = 20)
    (hts₁ : ts₁ < 2 ^ 256) (hts₂ : ts₂ < 2 ^ 256)
    (h : packedBytes t₁ a₁ ts₁ = packedBytes t₂ a₂ ts₂) :
    t₁ = t₂ ∧ a₁ = a₂ ∧ ts₁ = ts₂ := by
  simp only [packedBytes, List.append_assoc] at h
  have hsuffix : (a₁ ++ beBytes 32 ts₁).length = (a₂ ++ beBytes 32 ts₂).length := by
    simp [ha₁, ha₂, beBytes_length]
  obtain ⟨hs, hrest⟩ := utf8Bytes_append_inj h hsuffix
  obtain ⟨haddr, hbe⟩ := List.append_inj hrest (by rw [ha₁, ha₂])
  refine ⟨hs, haddr, beBytes_inj ?_ ?_ hbe⟩
  · simpa [show (256 : Nat) ^ 32 = 2 ^ 256 by norm_num] using hts₁
  · simpa [show (256 : Nat) ^ 32 = 2 ^ 256 by norm_num] using hts₂

/-! ## Claim theorems -/

def zeroAddr : String := "0x0000000000000000000000000000000000000000"

/-- C1: for every token string, owner string passing address normalization,
and (representable) timestamp, `commit(token, owner, ts)` returns the
keccak-256 digest of the UTF-8 bytes of the token, followed by the 20-byte
form of the normalized owner, followed by the 32-byte big-endian unsigned
form of `ts`; determinism is definitional in the pure embedding and restated
as the second conjunct. -/
theorem commit_is_keccak_of_packed (token owner a : String) (ts : Int)
    (ha : getAddress owner = some a) (h0 : 0 ≤ ts) (h1 : ts < 2 ^ 256) :
    (∃ ab, getBytesHex a = some ab ∧ ab.length = 20 ∧
      computeProof token owner ts =
        .ok (hexlify (keccak256 (packedBytes token ab ts.toNat)))) ∧
    computeProof token owner ts = computeProof token owner ts :=
  ⟨computeProof_ok token ha h0 h1, rfl⟩

-- HEAVY_WITNESS_BEGIN
set_option maxRecDepth 100000 in
/-- Witness for C1 at a concrete triple. -/
theorem commit_is_keccak_of_packed_witness :
    (∃ ab, getBytesHex zeroAddr = some ab ∧ ab.length = 20 ∧
      computeProof "QmTest" zeroAddr 1700000000 =
        .ok (hexlify (keccak256 (packedBytes "QmTest" ab
          ((1700000000 : Int).toNat))))) ∧
    computeProof "QmTest" zeroAddr 1700000000 =
      computeProof "QmTest" zeroAddr 1700000000 :=
  commit_is_keccak_of_packed "QmTest" zeroAddr zeroAddr 1700000000
    (by rfl) (by norm_num) (by norm_num)

-- HEAVY_WITNESS_END
/-- C2: the proof field of the `ProofStored` event emitted by the on-ledger
`storeProof` is exactly the digest the client-side `computeProof` recomputes
from the same cid, an owner string normalizing to the sender's address bytes,
and the block timestamp. -/
theorem storeProof_event_matches_commit (cid owner a : String)
    (sender : List Nat) (ts : Nat) (ha : getAddress owner = some a)
    (hs : getBytesHex a = some sender) (hts : ts < 2 ^ 256) :
    computeProof cid owner (ts : Int) =
      .ok (hexlify ((storeProof sender cid ts).proof)) := by
  obtain ⟨ab, hab, hablen, heq⟩ := computeProof_ok cid ha
    (Int.natCast_nonneg ts) (by exact_mod_cast hts)
  rw [hs] at hab
  injection hab with hab
  rw [heq, ← hab]
  simp [storeProof, storeProofHash]

-- HEAVY_WITNESS_BEGIN
set_option maxRecDepth 100000 in
/-- Witness for C2 at a concrete transaction. -/
theorem storeProof_event_matches_commit_witness :
    computeProof "QmTest" zeroAddr ((1700000000 : Nat) : Int) =
      .ok (hexlify ((storeProof (List.replicate 20 0) "QmTest" 1700000000).proof)) :=
  storeProof_event_matches_commit "QmTest" zeroAddr zeroAddr
    (List.replicate 20 0) 1700000000 (by rfl) (by rfl) (by norm_num)

-- HEAVY_WITNESS_END
-- HEAVY_WITNESS_BEGIN
set_option maxRecDepth 100000 in
/-- C3 counterexample: the zero address normalizes, yet
`commit("QmTest", zeroAddr, -1)` still fails — the `uint256` packing step
throws on a negative timestamp, so success is not guaranteed for every
integer `ts` even when the owner is valid. -/
theorem commit_negative_ts_fails_despite_valid_owner :
    (getAddress zeroAddr).isSome = true ∧
    computeProof "QmTest" zeroAddr (-1) = .error .packingFault :=
  ⟨by rfl, by rfl⟩

-- HEAVY_WITNESS_END
/-- C3 amended: for timestamps representable as `uint256`
(`0 ≤ ts < 2^256`), `commit` fails exactly when the owner fails address
normalization, and then with the InvalidOwnerAddress error; timestamps
outside that range make the packing step throw even for valid owners. -/
theorem commit_fails_iff_invalid_owner (cid owner : String) (ts : Int)
    (h0 : 0 ≤ ts) (h1 : ts < 2 ^ 256) :
    ((∃ e, computeProof cid owner ts = .error e) ↔ getAddress owner = none) ∧
    (getAddress owner = none →
      computeProof cid owner ts = .error .invalidOwnerAddress) := by
  constructor
  · constructor
    · rintro ⟨e, he⟩
      cases hga : getAddress owner with
      | none => rfl
      | some a =>
        obtain ⟨ab, hab, hablen, hok⟩ := computeProof_ok cid hga h0 h1
        rw [hok] at he
        exact absurd he (by simp)
    · intro hga
      exact ⟨.invalidOwnerAddress, by simp [computeProof, hga]⟩
  · intro hga
    simp [computeProof, hga]

/-- Witness for the amended C3 at a concrete input. -/
theorem commit_fails_iff_invalid_owner_witness :
    ((∃ e, computeProof "QmTest" "not-an-address" 1700000000 = .error e) ↔
      getAddress "not-an-address" = none) ∧
    (getAddress "not-an-address" = none →
      computeProof "QmTest" "not-an-address" 1700000000 =
        .error .invalidOwnerAddress) :=
  commit_fails_iff_invalid_owner "QmTest" "not-an-address" 1700000000
    (by norm_num) (by norm_num)

/-- C4: the packed encoding used by `commit` is injective on
(token, normalized-owner bytes, timestamp) triples: the trailing address and
timestamp fields are fixed-width, and the variable-width token occupies only
the leading position, so no `("ab","c")` versus `("a","bc")` style collision
is possible. -/
theorem packed_encoding_injective (t₁ t₂ : String) (a₁ a₂ : List Nat)
    (ts₁ ts₂ : Nat) (ha₁ : a₁.length = 20) (ha₂ : a₂.length = 20)
    (hts₁ : ts₁ < 2 ^ 256) (hts₂ : ts₂ < 2 ^ 256)
    (h : packedBytes t₁ a₁ ts₁ = packedBytes t₂ a₂ ts₂) :
    t₁ = t₂ ∧ a₁ = a₂ ∧ ts₁ = ts₂ :=
  packedBytes_inj ha₁ ha₂ hts₁ hts₂ h

/-- Witness for C4 at a concrete pair of equal packed sequences. -/
theorem packed_encoding_injective_witness :
    ("Qm" : String) = "Qm" ∧ List.replicate 20 0 = List.replicate 20 0 ∧
      (5 : Nat) = 5 :=
  packed_encoding_injective "Qm" "Qm" (List.replicate 20 0)
    (List.replicate 20 0) 5 5 (by decide) (by decide) (by norm_num)
    (by norm_num) rfl

/-! ## C5 and C6 -/

theorem mockFlow_roundtrip {cid mo : String} {ts : Int} {p : ProofRec}
    (h : mockFlow cid mo ts = .ok p) : verifyLocally p = .ok true := by
  cases hc : computeProof cid mo ts with
  | ok hsh =>
    simp only [mockFlow, hc] at h
    injection h with h
    subst h
    simp [verifyLocally, hc]
  | error e => simp [mockFlow, hc] at h

/-- C5: every ProofRecord produced by the Create phase — whether through the
ledger-anchoring branch or the local mock fallback — carries a digest equal
to the commitment of its own (cid, owner, ts) fields, so Verify succeeds on
it immediately. -/
theorem createProofObject_roundtrip (cid : String) (ts : Int)
    (w3 : Web3Outcome) (sa : Option String) (mo : String) (p : ProofRec)
    (h : createProofObject cid ts w3 sa mo = .ok p) :
    verifyLocally p = .ok true := by
  cases w3 with
  | unavailable => exact mockFlow_roundtrip h
  | threw => exact mockFlow_roundtrip h
  | ok res =>
    simp only [createProofObject] at h
    cases hc : computeProof cid (res.owner.getD (sa.getD ""))
        (res.timestamp.getD ts) with
    | ok hsh =>
      rw [hc] at h
      injection h with h
      subst h
      simp [verifyLocally, hc]
    | error e =>
      rw [hc] at h
      exact mockFlow_roundtrip h

-- HEAVY_WITNESS_BEGIN
set_option maxRecDepth 100000 in
/-- Witness for C5: a record created through the mock fallback verifies. -/
theorem createProofObject_roundtrip_witness :
    verifyLocally ⟨"QmTest", zeroAddr,
      "0x8a0c10bfc7cbc83cacc80753b10711479d94916c61e1bdad8f3f1301406d8e06",
      1700000000, none⟩ = .ok true :=
  createProofObject_roundtrip "QmTest" 1700000000 .unavailable none zeroAddr
    _ (by rfl)

-- HEAVY_WITNESS_END
-- HEAVY_WITNESS_BEGIN
set_option maxRecDepth 1000000 in
/-- C6 counterexample: a valid record whose owner field is mutated from the
all-lowercase spelling to the distinct EIP-55 checksummed spelling of the
same address keeps the very same digest, so Verify reports no mismatch for
this single-field change. -/
theorem tamper_owner_respelling_undetected :
    ("0x5aaeb6053f3e94c9b9a09f33669435e7ef1beaed" : String) ≠
      "0x5aAeb6053F3E94C9b9A09f33669435E7Ef1BeAed" ∧
    verifyLocally ⟨"QmTest", "0x5aaeb6053f3e94c9b9a09f33669435e7ef1beaed",
      "0x88557296cade967f341201b41b3b60c7f3dd587f82dc409aaf35101e50ba7d6e",
      1700000000, none⟩ = .ok true ∧
    verifyLocally ⟨"QmTest", "0x5aAeb6053F3E94C9b9A09f33669435E7Ef1BeAed",
      "0x88557296cade967f341201b41b3b60c7f3dd587f82dc409aaf35101e50ba7d6e",
      1700000000, none⟩ = .ok true :=
  ⟨by decide, by rfl, by rfl⟩

-- HEAVY_WITNESS_END
theorem getBytesHex_length_of_getAddress {s a : String} {ab : List Nat}
    (ha : getAddress s = some a) (hab : getBytesHex a = some ab) :
    ab.length = 20 := by
  obtain ⟨body, hlen, hall, rfl⟩ := getAddress_some_shape ha
  obtain ⟨ab₀, hab₀, hlen₀⟩ := getBytesHex_checksummed hlen hall
  rw [hab₀] at hab
  injection hab with hab
  rw [← hab]
  exact hlen₀

/-- C6 amended: for a valid record, mutating the token, or the timestamp, or
the owner to an address with different normalized bytes all change the packed
byte sequence over which the digest is recomputed (so a digest match would
require a keccak collision); mutating the owner to any spelling with the same
normalization — the situation of the counterexample — leaves even the digest
unchanged and Verify still succeeds. -/
theorem tamper_mutation_changes_preimage (r : ProofRec) (a : String)
    (ab : List Nat) (t' : String) (ts' : Int) (o' a' : String)
    (ab' : List Nat) (osame : String)
    (ha : getAddress r.owner = some a) (hab : getBytesHex a = some ab)
    (h0 : 0 ≤ r.ts) (h1 : r.ts < 2 ^ 256)
    (hproof : r.proof = hexlify (keccak256 (packedBytes r.cid ab r.ts.toNat)))
    (ht' : t' ≠ r.cid)
    (hts0 : 0 ≤ ts') (hts1 : ts' < 2 ^ 256) (htsne : ts' ≠ r.ts)
    (ho' : getAddress o' = some a') (hab' : getBytesHex a' = some ab')
    (habne : ab' ≠ ab)
    (hsame : getAddress osame = getAddress r.owner) :
    packedBytes t' ab r.ts.toNat ≠ packedBytes r.cid ab r.ts.toNat ∧
    packedBytes r.cid ab ts'.toNat ≠ packedBytes r.cid ab r.ts.toNat ∧
    packedBytes r.cid ab' r.ts.toNat ≠ packedBytes r.cid ab r.ts.toNat ∧
    verifyLocally { r with owner := osame } = .ok true := by
  have hablen : ab.length = 20 := getBytesHex_length_of_getAddress ha hab
  have hablen' : ab'.length = 20 := getBytesHex_length_of_getAddress ho' hab'
  have htsnat : r.ts.toNat < 2 ^ 256 := by omega
  have htsnat' : ts'.toNat < 2 ^ 256 := by omega
  refine ⟨?_, ?_, ?_, ?_⟩
  · intro hcontra
    exact ht' (packedBytes_inj hablen hablen htsnat htsnat hcontra).1
  · intro hcontra
    have := (packedBytes_inj hablen hablen htsnat' htsnat hcontra).2.2
    omega
  · intro hcontra
    exact habne (packedBytes_inj hablen' hablen htsnat htsnat hcontra).2.1
  · have hga : getAddress osame = some a := by rw [hsame]; exact ha
    obtain ⟨ab₀, hab₀, hlen₀, hok⟩ := computeProof_ok r.cid hga h0 h1
    rw [hab] at hab₀
    injection hab₀ with hab₀
    rw [← hab₀] at hok
    simp [verifyLocally, hok, hproof]

-- HEAVY_WITNESS_BEGIN
set_option maxRecDepth 1000000 in
/-- Witness for the amended C6 at a concrete valid record and concrete
mutations of each field. -/
theorem tamper_mutation_changes_preimage_witness :
    packedBytes "QmTest2"
        [90, 174, 182, 5, 63, 62, 148, 201, 185, 160, 159, 51, 102, 148, 53,
         231, 239, 27, 234, 237] ((1700000000 : Int).toNat) ≠
      packedBytes "QmTest"
        [90, 174, 182, 5, 63, 62, 148, 201, 185, 160, 159, 51, 102, 148, 53,
         231, 239, 27, 234, 237] ((1700000000 : Int).toNat) ∧
    packedBytes "QmTest"
        [90, 174, 182, 5, 63, 62, 148, 201, 185, 160, 159, 51, 102, 148, 53,
         231, 239, 27, 234, 237] ((1700000001 : Int).toNat) ≠
      packedBytes "QmTest"
        [90, 174, 182, 5, 63, 62, 148, 201, 185, 160, 159, 51, 102, 148, 53,
         231, 239, 27, 234, 237] ((1700000000 : Int).toNat) ∧
    packedBytes "QmTest" (List.replicate 20 0) ((1700000000 : Int).toNat) ≠
      packedBytes "QmTest"
        [90, 174, 182, 5, 63, 62, 148, 201, 185, 160, 159, 51, 102, 148, 53,
         231, 239, 27, 234, 237] ((1700000000 : Int).toNat) ∧
    verifyLocally ⟨"QmTest", "0x5aAeb6053F3E94C9b9A09f33669435E7Ef1BeAed",
      "0x88557296cade967f341201b41b3b60c7f3dd587f82dc409aaf35101e50ba7d6e",
      1700000000, none⟩ = .ok true :=
  tamper_mutation_changes_preimage
    ⟨"QmTest", "0x5aaeb6053f3e94c9b9a09f33669435e7ef1beaed",
      "0x88557296cade967f341201b41b3b60c7f3dd587f82dc409aaf35101e50ba7d6e",
      1700000000, none⟩
    "0x5aAeb6053F3E94C9b9A09f33669435E7Ef1BeAed"
    [90, 174, 182, 5, 63, 62, 148, 201, 185, 160, 159, 51, 102, 148, 53,
     231, 239, 27, 234, 237]
    "QmTest2" 1700000001 zeroAddr zeroAddr (List.replicate 20 0)
    "0x5aAeb6053F3E94C9b9A09f33669435E7Ef1BeAed"
    (by rfl) (by rfl) (by norm_num) (by norm_num) (by rfl) (by decide)
    (by norm_num) (by norm_num) (by decide) (by rfl) (by rfl) (by decide)
    (by rfl)

-- HEAVY_WITNESS_END
/-! ## Resolver lemmas (C7, C8, C10) -/

theorem dropWhile_eq_self_of {p : α → Bool} {l : List α}
    (h : ∀ c ∈ l, p c = false) : l.dropWhile p = l := by
  cases l with
  | nil => rfl
  | cons a t => simp [List.dropWhile_cons, h a (by simp)]

theorem takeWhile_eq_self_of {p : α → Bool} : ∀ {l : List α},
    (∀ c ∈ l, p c = true) → l.takeWhile p = l
  | [], _ => rfl
  | a :: t, h => by
    have ht : ∀ c ∈ t, p c = true := fun c hc => h c (List.mem_cons_of_mem a hc)
    simp [List.takeWhile_cons, h a (List.mem_cons_self a t),
      takeWhile_eq_self_of ht]

theorem trimChars_eq_self_of {l : List Char}
    (h : ∀ c ∈ l, isJsWs c = false) : trimChars l = l := by
  unfold trimChars
  rw [dropWhile_eq_self_of h,
    dropWhile_eq_self_of fun c hc => h c (by simpa using hc),
    List.reverse_reverse]

theorem mem_of_isPrefixOf {p l : List Char} {c : Char}
    (hp : p.isPrefixOf l = true) (hc : c ∈ p) : c ∈ l := by
  rw [List.isPrefixOf_iff_prefix] at hp
  exact hp.subset hc

theorem alnum_not_ws {c : Char} (h : isAlphanumCh c = true) : isJsWs c = false := by
  simp only [isAlphanumCh, Bool.or_eq_true, Bool.and_eq_true,
    decide_eq_true_eq] at h
  apply Bool.eq_false_iff.mpr
  intro hw
  have hmem : c.toNat ∈ [9, 10, 11, 12, 13, 32, 160, 0x2028, 0x2029, 0xFEFF] := by
    simpa [isJsWs] using hw
  simp only [List.mem_cons, List.not_mem_nil, or_false] at hmem
  omega

theorem alnum_not_sep {c : Char} (h : isAlphanumCh c = true) :
    (c = '/' ∨ c = '?' ∨ c = '#') → False := by
  rintro (rfl | rfl | rfl) <;> simp [isAlphanumCh] at h

theorem no_scheme_prefix {l : List Char}
    (h : ∀ c ∈ l, isAlphanumCh c = true) {p : List Char} (hc : ':' ∈ p) :
    p.isPrefixOf l = false := by
  apply Bool.eq_false_iff.mpr
  intro hp
  have := h ':' (mem_of_isPrefixOf hp hc)
  exact absurd this (by decide)

theorem findSubstr_ipfs_none {l : List Char} (h : ∀ c ∈ l, c ≠ '/') :
    findSubstr ipfsSegChars l = none := by
  induction l with
  | nil => rfl
  | cons a t ih =>
    have hpre : ipfsSegChars.isPrefixOf (a :: t) = false := by
      apply Bool.eq_false_iff.mpr
      intro hp
      exact h '/' (mem_of_isPrefixOf hp (by decide)) rfl
    simp [findSubstr, hpre, ih fun c hc => h c (by simp [hc])]

/-- A purely alphanumeric candidate passes through the whole stripping
pipeline unchanged, whatever the URL oracle does. -/
theorem stripCandidate_eq_self (env : UrlEnv) {l : List Char}
    (h : ∀ c ∈ l, isAlphanumCh c = true) : stripCandidate env l = l := by
  have hws : ∀ c ∈ l, isJsWs c = false := fun c hc => alnum_not_ws (h c hc)
  have hslash : ∀ c ∈ l, c ≠ '/' := fun c hc heq =>
    alnum_not_sep (h c hc) (Or.inl heq)
  have hsep : ∀ c ∈ l, (decide ¬(c = '/' ∨ c = '?' ∨ c = '#')) = true :=
    fun c hc => decide_eq_true fun hor => alnum_not_sep (h c hc) hor
  simp only [stripCandidate, trimChars_eq_self_of hws,
    no_scheme_prefix h (show ':' ∈ httpChars by decide),
    no_scheme_prefix h (show ':' ∈ httpsChars by decide),
    no_scheme_prefix h (show ':' ∈ ipfsSchemeChars by decide),
    findSubstr_ipfs_none hslash, Bool.or_self, Bool.false_eq_true, if_false,
    takeWhile_eq_self_of hsep, trimChars_eq_self_of hws]

theorem isBase58Ci_alnum {c : Char} (h : isBase58Ci c = true) :
    isAlphanumCh c = true := by
  simp only [isBase58Ci, Bool.and_eq_true] at h
  exact h.1

theorem strictQm_alnum {cs : List Char} (h : strictQmMatch cs = true) :
    ∀ c ∈ cs, isAlphanumCh c = true := by
  cases cs with
  | nil => simp [strictQmMatch] at h
  | cons c1 t1 =>
    cases t1 with
    | nil => simp [strictQmMatch] at h
    | cons c2 rest =>
      simp only [strictQmMatch, Bool.and_eq_true, Bool.or_eq_true,
        beq_iff_eq] at h
      obtain ⟨⟨⟨h1, h2⟩, _⟩, hall⟩ := h
      intro c hc
      simp only [List.mem_cons] at hc
      rcases hc with rfl | rfl | hc
      · rcases h1 with rfl | rfl <;> decide
      · rcases h2 with rfl | rfl <;> decide
      · exact isBase58Ci_alnum (List.all_eq_true.mp hall c hc)

theorem strictBafy_shape {m : Nat} {cs : List Char}
    (h : strictBafyMatch m cs = true) :
    ∃ c1 c2 c3 c4 rest, cs = c1 :: c2 :: c3 :: c4 :: rest ∧
      (c1 = 'b' ∨ c1 = 'B') ∧ (c2 = 'a' ∨ c2 = 'A') ∧
      (c3 = 'f' ∨ c3 = 'F') ∧ (c4 = 'y' ∨ c4 = 'Y') ∧
      m ≤ rest.length ∧ rest.all isAlphanumCh = true := by
  cases cs with
  | nil => simp [strictBafyMatch] at h
  | cons c1 t1 =>
    cases t1 with
    | nil => simp [strictBafyMatch] at h
    | cons c2 t2 =>
      cases t2 with
      | nil => simp [strictBafyMatch] at h
      | cons c3 t3 =>
        cases t3 with
        | nil => simp [strictBafyMatch] at h
        | cons c4 rest =>
          simp only [strictBafyMatch, Bool.and_eq_true, Bool.or_eq_true,
            beq_iff_eq, decide_eq_true_eq] at h
          exact ⟨c1, c2, c3, c4, rest, rfl, h.1.1.1.1.1, h.1.1.1.1.2,
            h.1.1.1.2, h.1.1.2, h.1.2, h.2⟩

theorem strictBafy_alnum {m : Nat} {cs : List Char}
    (h : strictBafyMatch m cs = true) : ∀ c ∈ cs, isAlphanumCh c = true := by
  obtain ⟨c1, c2, c3, c4, rest, rfl, h1, h2, h3, h4, _, hall⟩ :=
    strictBafy_shape h
  intro c hc
  simp only [List.mem_cons] at hc
  rcases hc with rfl | rfl | rfl | rfl | hc
  · rcases h1 with rfl | rfl <;> decide
  · rcases h2 with rfl | rfl <;> decide
  · rcases h3 with rfl | rfl <;> decide
  · rcases h4 with rfl | rfl <;> decide
  · exact List.all_eq_true.mp hall c hc

theorem relaxed_alnum {cs : List Char} (h : relaxedMatch cs = true) :
    ∀ c ∈ cs, isAlphanumCh c = true := by
  simp only [relaxedMatch, Bool.and_eq_true] at h
  exact fun c hc => List.all_eq_true.mp h.1.1.2 c hc

theorem validateCid_nil (m : Nat) : validateCid m [] = none := rfl

theorem validateCid_some {m : Nat} {cs t : List Char}
    (h : validateCid m cs = some t) :
    t = cs ∧ cs ≠ [] ∧ (∀ c ∈ cs, isAlphanumCh c = true) := by
  have hne : cs ≠ [] := by
    rintro rfl
    rw [validateCid_nil] at h
    exact absurd h (by simp)
  unfold validateCid at h
  split at h
  · next hstrict =>
    injection h with h
    subst h
    rcases Bool.or_eq_true _ _ |>.mp hstrict with hqm | hbafy
    · exact ⟨rfl, hne, strictQm_alnum hqm⟩
    · exact ⟨rfl, hne, strictBafy_alnum hbafy⟩
  · split at h
    · next hrel =>
      injection h with h
      subst h
      exact ⟨rfl, hne, relaxed_alnum hrel⟩
    · exact absurd h (by simp)

/-- C7: `resolveToken` is total — for every input it returns a token or the
absent value, never an error; absent and empty inputs yield absent, and so
does every input whose stripped candidate matches neither strict shape nor
the relaxed rule, for every behaviour of the URL-parsing oracle. -/
theorem resolveToken_total_absent (env : UrlEnv) :
    extractCidToken env none = none ∧
    extractCidToken env (some "") = none ∧
    (∀ s : String, extractCidToken env (some s) = none ∨
      ∃ t, extractCidToken env (some s) = some t) ∧
    ∀ s : String,
      strictQmMatch (stripCandidate env s.data) = false →
      strictBafyMatch 40 (stripCandidate env s.data) = false →
      relaxedMatch (stripCandidate env s.data) = false →
      extractCidToken env (some s) = none := by
  refine ⟨rfl, by simp [extractCidToken, extractCidTokenWith], ?_, ?_⟩
  · intro s
    cases hv : extractCidToken env (some s) with
    | none => exact Or.inl rfl
    | some t => exact Or.inr ⟨t, rfl⟩
  · intro s h1 h2 h3
    simp only [extractCidToken, extractCidTokenWith]
    split
    · rfl
    · simp [validateCid, h1, h2, h3]

/-- Witness for C7 at a concrete oracle and a concrete non-matching input. -/
theorem resolveToken_total_absent_witness :
    extractCidToken ⟨fun _ => none⟩ none = none ∧
    extractCidToken ⟨fun _ => none⟩ (some "") = none ∧
    extractCidToken ⟨fun _ => none⟩ (some "not-a-cid!") = none :=
  ⟨(resolveToken_total_absent ⟨fun _ => none⟩).1,
   (resolveToken_total_absent ⟨fun _ => none⟩).2.1,
   (resolveToken_total_absent ⟨fun _ => none⟩).2.2.2 "not-a-cid!"
     (by decide) (by decide) (by decide)⟩

/-- C8: token resolution is idempotent — whenever `resolveToken` returns a
token, resolving that token again returns it unchanged (for every URL
oracle). -/
theorem resolveToken_idempotent (env : UrlEnv) (x t : String)
    (h : extractCidToken env (some x) = some t) :
    extractCidToken env (some t) = some t := by
  simp only [extractCidToken, extractCidTokenWith] at h ⊢
  split at h
  · exact absurd h (by simp)
  · cases hv : validateCid 40 (stripCandidate env x.data) with
    | none => rw [hv] at h; exact absurd h (by simp)
    | some cs =>
      rw [hv] at h
      obtain ⟨heq, hne0, halnum0⟩ := validateCid_some hv
      have hne : cs ≠ [] := by rw [heq]; exact hne0
      have halnum : ∀ c ∈ cs, isAlphanumCh c = true := by
        rw [heq]; exact halnum0
      have hv' : validateCid 40 cs = some cs := by
        rw [heq] at hv ⊢
        exact hv
      have h' : some (String.mk cs) = some t := h
      injection h' with h'
      subst h'
      rw [if_neg (fun hcontra => hne (congrArg String.data hcontra))]
      show (validateCid 40 (stripCandidate env cs)).map String.mk =
        some (String.mk cs)
      rw [stripCandidate_eq_self env halnum, hv']
      rfl

set_option maxRecDepth 4000 in
/-- Witness for C8 at a concrete gateway URL. -/
theorem resolveToken_idempotent_witness :
    extractCidToken ⟨fun _ => none⟩
      (some "bafybeigdyrzt5sfp7udm7hu76uh7y26nf3efuylqabf3oclgtqy55fbzdi") =
      some "bafybeigdyrzt5sfp7udm7hu76uh7y26nf3efuylqabf3oclgtqy55fbzdi" :=
  resolveToken_idempotent ⟨fun _ => none⟩
    "ipfs://bafybeigdyrzt5sfp7udm7hu76uh7y26nf3efuylqabf3oclgtqy55fbzdi"
    "bafybeigdyrzt5sfp7udm7hu76uh7y26nf3efuylqabf3oclgtqy55fbzdi" (by rfl)

theorem strictBafy_mono {cs : List Char} (h : strictBafyMatch 52 cs = true) :
    strictBafyMatch 40 cs = true := by
  obtain ⟨c1, c2, c3, c4, rest, rfl, h1, h2, h3, h4, hlen, hall⟩ :=
    strictBafy_shape h
  simp only [strictBafyMatch, Bool.and_eq_true, Bool.or_eq_true, beq_iff_eq,
    decide_eq_true_eq]
  exact ⟨⟨⟨⟨⟨h1, h2⟩, h3⟩, h4⟩, by omega⟩, hall⟩

theorem strictBafy_gap_relaxed {cs : List Char}
    (h40 : strictBafyMatch 40 cs = true) (h52 : strictBafyMatch 52 cs = false) :
    relaxedMatch cs = true := by
  obtain ⟨c1, c2, c3, c4, rest, rfl, h1, h2, h3, h4, hlen, hall⟩ :=
    strictBafy_shape h40
  have hlt : rest.length < 52 := by
    by_contra hge
    rw [show strictBafyMatch 52 (c1 :: c2 :: c3 :: c4 :: rest) = true by
      simp only [strictBafyMatch, Bool.and_eq_true, Bool.or_eq_true,
        beq_iff_eq, decide_eq_true_eq]
      exact ⟨⟨⟨⟨⟨h1, h2⟩, h3⟩, h4⟩, by omega⟩, hall⟩] at h52
    exact absurd h52 (by simp)
  have halnum : ∀ c ∈ c1 :: c2 :: c3 :: c4 :: rest, isAlphanumCh c = true :=
    strictBafy_alnum h40
  simp only [relaxedMatch, Bool.and_eq_true, decide_eq_true_eq]
  refine ⟨⟨⟨rfl, List.all_eq_true.mpr halnum⟩, ?_⟩, ?_⟩ <;>
    simp only [List.length_cons] <;> omega

theorem validateCid_40_eq_52 (cs : List Char) :
    validateCid 40 cs = validateCid 52 cs := by
  by_cases hqm : strictQmMatch cs = true
  · simp [validateCid, hqm]
  · by_cases h52 : strictBafyMatch 52 cs = true
    · simp [validateCid, strictBafy_mono h52, h52]
    · by_cases h40 : strictBafyMatch 40 cs = true
      · have hrel := strictBafy_gap_relaxed h40 (by simpa using h52)
        simp [validateCid, hqm, h40, h52, hrel]
      · simp [validateCid, hqm, h40, h52]

/-- C10: the two copies of the token resolver — the one in `lib/ipfs.ts`
(strict CIDv1 suffix at least 40) and the one duplicated in `ProofCard.tsx`
(suffix at least 52) — agree on every input, for every URL oracle: every
candidate accepted by one strict pattern but not the other is alphanumeric of
length between 44 and 55 and is accepted by the shared relaxed rule. -/
theorem resolver_copies_agree (env : UrlEnv) (raw : Option String) :
    extractCidToken env raw = extractCidTokenCard env raw := by
  cases raw with
  | none => rfl
  | some r =>
    simp only [extractCidToken, extractCidTokenCard, extractCidTokenWith]
    split
    · rfl
    · rw [validateCid_40_eq_52]

/-! ## C9: the placeholder token -/

theorem natHexDigits_length_le : ∀ (fuel n k : Nat), n < 16 ^ k →
    (natHexDigits fuel n).length ≤ k := by
  intro fuel
  induction fuel with
  | zero => intro n k _; simp [natHexDigits]
  | succ fuel ih =>
    intro n k hk
    simp only [natHexDigits]
    split
    · simp
    · next hn =>
      cases k with
      | zero => simp at hk; omega
      | succ k =>
        have hdiv : n / 16 < 16 ^ k := by
          rw [Nat.div_lt_iff_lt_mul (by norm_num)]
          calc n < 16 ^ (k + 1) := hk
          _ = 16 ^ k * 16 := by ring
        have := ih (n / 16) k hdiv
        simp only [List.length_append, List.length_cons, List.length_nil]
        omega

theorem natToHex_length_le {n k : Nat} (h1 : n < 16 ^ k) (hk : 1 ≤ k) :
    (natToHex n).length ≤ k := by
  unfold natToHex
  split
  · simpa using hk
  · exact natHexDigits_length_le n n k h1

theorem mockCid_bafy_false {m t : Nat} (hm : 25 ≤ m) (h : t < 2 ^ 53) :
    strictBafyMatch m (mockCid t).data = false := by
  apply Bool.eq_false_iff.mpr
  intro hcontra
  obtain ⟨c1, c2, c3, c4, rest, hshape, _, _, _, _, hlen, _⟩ :=
    strictBafy_shape hcontra
  have hdata : (mockCid t).data = mockCidPrefix ++ natToHex t := rfl
  have hhexlen : (natToHex t).length ≤ 14 :=
    natToHex_length_le (by calc t < 2 ^ 53 := h
      _ < 16 ^ 14 := by norm_num) (by norm_num)
  have hlen2 := congrArg List.length hshape
  rw [hdata] at hlen2
  simp only [List.length_append, List.length_cons, mockCidPrefix,
    List.length_nil] at hlen2
  omega

/-- C9: every placeholder token synthesized by the upload fallback carries
the fixed reserved prefix `bafybeimockcid` and never matches either strict
genuine-CID shape (in either resolver copy), so a verifier examining the
token can structurally detect unaddressed content. -/
theorem mock_token_distinguishable (t : Nat) (h : t < 2 ^ 53) :
    mockCidPrefix.isPrefixOf (mockCid t).data = true ∧
    strictQmMatch (mockCid t).data = false ∧
    strictBafyMatch 40 (mockCid t).data = false ∧
    strictBafyMatch 52 (mockCid t).data = false := by
  refine ⟨?_, ?_, mockCid_bafy_false (by norm_num) h,
    mockCid_bafy_false (by norm_num) h⟩
  · rw [List.isPrefixOf_iff_prefix]
    exact ⟨natToHex t, rfl⟩
  · apply Bool.eq_false_iff.mpr
    intro hcontra
    have hdata : (mockCid t).data =
        'b' :: 'a' :: 'f' :: 'y' :: ('b' :: 'e' :: 'i' :: 'm' :: 'o' :: 'c' ::
          'k' :: 'c' :: 'i' :: 'd' :: natToHex t) := rfl
    rw [hdata] at hcontra
    simp only [strictQmMatch, Bool.and_eq_true, Bool.or_eq_true,
      beq_iff_eq] at hcontra
    rcases hcontra.1.1.1 with hb | hb <;> exact absurd hb (by decide)

/-- Witness for C9 at a concrete clock value. -/
theorem mock_token_distinguishable_witness :
    mockCidPrefix.isPrefixOf (mockCid 1760227200000).data = true ∧
    strictQmMatch (mockCid 1760227200000).data = false ∧
    strictBafyMatch 40 (mockCid 1760227200000).data = false ∧
    strictBafyMatch 52 (mockCid 1760227200000).data = false :=
  mock_token_distinguishable 1760227200000 (by norm_num)

end ZkVerifier
